import Mathlib

/-!
Verification of the mcp-to-claude-skill converter.

This file gives a shallow embedding of the core of the repository:

* the tool data model and the rule-based tool classifier
  (`scripts/skill-generator.ts`, first revision: `categorizeTools`,
  `maskSensitiveArgs`, `formatSchemaForDocs`, `formatCommandForDocs`);
* the MCP discovery client (`mcp-client.ts`: `MCPClientWrapper.connect`,
  `MCPClientWrapper.listTools`), with the pagination loop modelled by an
  explicit fuel parameter because the JavaScript `do/while` loop has no
  termination guard;
* the observable effects of the CLI driver (`scripts/convert.ts`).

JavaScript regular expressions used by the source are restricted enough to
be modelled directly: every pattern is either an unanchored, possibly
case-insensitive alternation of literal substrings, or an anchored,
case-sensitive alternation of literal prefixes.  JavaScript truthiness is
modelled explicitly where the source relies on it (empty strings and
`undefined` are falsy; arrays are always truthy).
-/

namespace McpSkill

/-! ### Data model

`MCPTool` mirrors the `MCPTool` interface of `mcp-client.ts`.  The input
schema is modelled with exactly the fields read by `formatSchemaForDocs`
(`properties`, `required`, and for each property `type` and `description`);
the source walks the schema dynamically and touches nothing else.
Optional JavaScript fields become `Option`.
-/

structure PropSchema where
  type : Option String := none
  description : Option String := none
deriving DecidableEq

structure SchemaNode where
  properties : Option (List (String × PropSchema)) := none
  required : Option (List String) := none
deriving DecidableEq

structure MCPTool where
  name : String
  description : Option String := none
  inputSchema : Option SchemaNode := none
deriving DecidableEq

/-! ### Regular-expression patterns of the classifier

`hasSubstr needle hay` decides whether `needle` occurs contiguously in
`hay`, the semantics of an unanchored literal JavaScript regex test.
-/

def hasSubstr : List Char → List Char → Bool
  | needle, [] => needle.isEmpty
  | needle, c :: t => needle.isPrefixOf (c :: t) || hasSubstr needle t

def lowerList (cs : List Char) : List Char := cs.map Char.toLower

/-- A classifier pattern.  `iSub alts` is a case-insensitive unanchored
alternation of literal substrings (a `/a|b/i` regex); `headAlt alts` is a
case-sensitive anchored alternation of literal starts of the string (a
`/^(a|b)/` regex without the `i` flag). -/
inductive Pattern where
  | iSub (alts : List String)
  | headAlt (alts : List String)
deriving DecidableEq

def Pattern.test : Pattern → String → Bool
  | .iSub alts, s => alts.any (fun a => hasSubstr (lowerList a.toList) (lowerList s.toList))
  | .headAlt alts, s => alts.any (fun a => a.toList.isPrefixOf s.toList)

/-- Whether the modelled regex carried the `i` flag. -/
def Pattern.caseInsensitive : Pattern → Bool
  | .iSub _ => true
  | .headAlt _ => false

/-- One pattern applied to a tool, as in `categorizeTools`:
`pattern.test(tool.name) || (tool.description && pattern.test(tool.description))`.
An absent or empty description is falsy, so it is only tested when present
and nonempty. -/
def patternHits (p : Pattern) (t : MCPTool) : Bool :=
  p.test t.name ||
    (match t.description with
     | some d => !(d == "") && p.test d
     | none => false)

/-! ### Category rules (`categoryRules` in `skill-generator.ts`) -/

structure CatRule where
  name : String
  directory : String
  description : String
  patterns : List Pattern
  exclude : List Pattern := []
deriving DecidableEq

def publicRegistryRule : CatRule :=
  { name := "Public Registry"
    directory := "public-registry"
    description := "Tools for accessing public Terraform registry (modules, providers, policies)"
    patterns := [Pattern.headAlt
      ["get_latest", "get_module_details", "get_policy_details", "get_provider_details",
       "get_provider_capabilities", "search_modules", "search_policies", "search_providers"]]
    exclude := [Pattern.iSub ["private"]] }

def privateRegistryRule : CatRule :=
  { name := "Private Registry"
    directory := "private-registry"
    description := "Tools for accessing private Terraform modules and providers"
    patterns := [Pattern.iSub ["private_module", "private_provider"],
                 Pattern.iSub ["search_private"], Pattern.iSub ["get_private"]] }

def workspacesRule : CatRule :=
  { name := "Workspaces"
    directory := "workspaces"
    description := "Workspace creation, configuration, and management"
    patterns := [Pattern.iSub ["workspace"]]
    exclude := [Pattern.iSub ["variable"], Pattern.iSub ["tag"]] }

def runsRule : CatRule :=
  { name := "Runs"
    directory := "runs"
    description := "Terraform run creation and monitoring"
    patterns := [Pattern.iSub ["run"]]
    exclude := [Pattern.iSub ["running"]] }

def variablesRule : CatRule :=
  { name := "Variables"
    directory := "variables"
    description := "Variable and variable set management"
    patterns := [Pattern.iSub ["variable"], Pattern.iSub ["variable_set"]] }

def tagsRule : CatRule :=
  { name := "Tags"
    directory := "tags"
    description := "Workspace tagging operations"
    patterns := [Pattern.iSub ["tag"]] }

def organizationRule : CatRule :=
  { name := "Organization"
    directory := "organization"
    description := "Organization and project listing"
    patterns := [Pattern.iSub ["org", "project"], Pattern.headAlt ["list_terraform"]] }

def categoryRules : List CatRule :=
  [publicRegistryRule, privateRegistryRule, workspacesRule, runsRule,
   variablesRule, tagsRule, organizationRule]

/-- A rule claims a tool when some match pattern hits and no exclude
pattern hits (`matchesPattern && !matchesExclude`). -/
def ruleClaims (r : CatRule) (t : MCPTool) : Bool :=
  r.patterns.any (fun p => patternHits p t) && !(r.exclude.any (fun p => patternHits p t))

/-! ### `categorizeTools`

The source iterates over the tools, and for each tool walks the rule list
top to bottom, breaking at the first rule that claims it; the matching
category is created lazily in an insertion-ordered `Map` keyed by the
category directory and the tool is pushed onto its `tools` array.  Tools
claimed by no rule go to a lazily created `Other` category.  The function
returns `Array.from(categories.values())`, i.e. the categories in first
claim order.
-/

structure ToolCategory where
  name : String
  directory : String
  description : String
  tools : List MCPTool
deriving DecidableEq

/-- The first rule of `categoryRules` that claims the tool, if any
(the `for ... break` search of the source). -/
def assignRule (t : MCPTool) : Option CatRule :=
  categoryRules.find? (fun r => ruleClaims r t)

/-- Display name, directory key and description of the category receiving
the tool; the fallback triple is the `Other` category of the source. -/
def assignMeta (t : MCPTool) : String × String × String :=
  match assignRule t with
  | some r => (r.name, r.directory, r.description)
  | none => ("Other", "other", "Additional tools")

/-- Directory key of the category receiving the tool. -/
def assignDir (t : MCPTool) : String := (assignMeta t).2.1

/-- One iteration of the tool loop: append the tool to its category,
creating the category at the end of the insertion order if absent. -/
def addToCategory (cats : List ToolCategory) (t : MCPTool) : List ToolCategory :=
  let m := assignMeta t
  if cats.any (fun c => c.directory == m.2.1) then
    cats.map (fun c =>
      if c.directory == m.2.1 then { c with tools := c.tools ++ [t] } else c)
  else
    cats ++ [{ name := m.1, directory := m.2.1, description := m.2.2, tools := [t] }]

def categorizeTools (ts : List MCPTool) : List ToolCategory :=
  ts.foldl addToCategory []

/-! ### Structural invariant of the categorization loop -/

/-- Invariant of the tool loop after processing the tools `p`:
each category holds, in input order, exactly the processed tools assigned
to its directory; directories are distinct; every processed tool has a
category; and each category was created with the metadata of some tool
assigned to it. -/
def CatInv (p : List MCPTool) (cats : List ToolCategory) : Prop :=
  (∀ c ∈ cats, c.tools = p.filter (fun t => assignDir t == c.directory)) ∧
  (cats.map (fun c => c.directory)).Nodup ∧
  (∀ t ∈ p, ∃ c ∈ cats, c.directory = assignDir t) ∧
  (∀ c ∈ cats, ∃ t ∈ p, assignMeta t = (c.name, c.directory, c.description))

lemma addToCategory_inv {p : List MCPTool} {cats : List ToolCategory} {t : MCPTool}
    (h : CatInv p cats) : CatInv (p ++ [t]) (addToCategory cats t) := by
  obtain ⟨h1, h2, h3, h4⟩ := h
  have hdir : assignDir t = (assignMeta t).2.1 := rfl
  unfold addToCategory
  by_cases hex : (cats.any (fun c => c.directory == (assignMeta t).2.1)) = true
  · rw [if_pos hex]
    refine ⟨?_, ?_, ?_, ?_⟩
    · intro c' hc'
      obtain ⟨c, hc, rfl⟩ := List.mem_map.1 hc'
      by_cases hcd : (c.directory == (assignMeta t).2.1) = true
      · rw [if_pos hcd]
        have hcd' : assignDir t = c.directory := by
          rw [hdir]; exact (beq_iff_eq.1 hcd).symm
        simp only [List.filter_append, h1 c hc]
        simp [hcd']
      · rw [if_neg hcd]
        have hcd' : ¬ assignDir t = c.directory := by
          rw [hdir]; intro hh; exact hcd (beq_iff_eq.2 hh.symm)
        simp only [List.filter_append, h1 c hc]
        simp [hcd']
    · have : (cats.map (fun c =>
          if c.directory == (assignMeta t).2.1 then
            { c with tools := c.tools ++ [t] } else c)).map (fun c => c.directory) =
          cats.map (fun c => c.directory) := by
        rw [List.map_map]
        refine List.map_congr_left ?_
        intro c _
        by_cases hcd : c.directory = (assignMeta t).2.1
        · simp [hcd]
        · simp [hcd]
      rw [this]; exact h2
    · intro t' ht'
      rcases List.mem_append.1 ht' with ht' | ht'
      · obtain ⟨c, hc, hcd⟩ := h3 t' ht'
        refine ⟨_, List.mem_map_of_mem _ hc, ?_⟩
        by_cases hcd' : (c.directory == (assignMeta t).2.1) = true
        · simpa [hcd'] using hcd
        · simpa [hcd'] using hcd
      · have ht'' : t' = t := by simpa using ht'
        obtain ⟨c, hc, hcd⟩ := List.any_eq_true.1 hex
        have hcd2 : c.directory = (assignMeta t).2.1 := beq_iff_eq.1 hcd
        refine ⟨_, List.mem_map_of_mem _ hc, ?_⟩
        simp [ht'', hcd2, hdir]
    · intro c' hc'
      obtain ⟨c, hc, rfl⟩ := List.mem_map.1 hc'
      obtain ⟨t', ht', hmeta⟩ := h4 c hc
      refine ⟨t', List.mem_append.2 (Or.inl ht'), ?_⟩
      by_cases hcd : (c.directory == (assignMeta t).2.1) = true
      · simpa [hcd] using hmeta
      · simpa [hcd] using hmeta
  · rw [if_neg hex]
    have hnot : ∀ c ∈ cats, ¬ c.directory = (assignMeta t).2.1 := by
      intro c hc hcd
      exact hex (List.any_eq_true.2 ⟨c, hc, beq_iff_eq.2 hcd⟩)
    refine ⟨?_, ?_, ?_, ?_⟩
    · intro c' hc'
      rcases List.mem_append.1 hc' with hc' | hc'
      · have hcd : ¬ assignDir t = c'.directory := by
          rw [hdir]; intro hh; exact hnot c' hc' hh.symm
        simp only [List.filter_append, h1 c' hc']
        simp [hcd]
      · have hc'' : c' = ⟨(assignMeta t).1, (assignMeta t).2.1, (assignMeta t).2.2, [t]⟩ := by
          simpa using hc'
        subst hc''
        simp only [List.filter_append]
        have hp : p.filter (fun t' => assignDir t' == (assignMeta t).2.1) = [] := by
          rw [List.filter_eq_nil_iff]
          intro t' ht' hcd
          obtain ⟨c, hc, hcd'⟩ := h3 t' ht'
          exact hnot c hc (by rw [hcd']; exact beq_iff_eq.1 hcd)
        simp [hp, hdir]
    · rw [List.map_append]
      rw [List.nodup_append]
      refine ⟨h2, List.nodup_singleton _, ?_⟩
      intro d hd hd'
      obtain ⟨c, hc, rfl⟩ := List.mem_map.1 hd
      have : c.directory = (assignMeta t).2.1 := by simpa using hd'
      exact hnot c hc this
    · intro t' ht'
      rcases List.mem_append.1 ht' with ht' | ht'
      · obtain ⟨c, hc, hcd⟩ := h3 t' ht'
        exact ⟨c, List.mem_append.2 (Or.inl hc), hcd⟩
      · have ht'' : t' = t := by simpa using ht'
        refine ⟨⟨(assignMeta t).1, (assignMeta t).2.1, (assignMeta t).2.2, [t]⟩,
          List.mem_append.2 (Or.inr (by simp)), ?_⟩
        simp [ht'', hdir]
    · intro c' hc'
      rcases List.mem_append.1 hc' with hc' | hc'
      · obtain ⟨t', ht', hmeta⟩ := h4 c' hc'
        exact ⟨t', List.mem_append.2 (Or.inl ht'), hmeta⟩
      · have hc'' : c' = ⟨(assignMeta t).1, (assignMeta t).2.1, (assignMeta t).2.2, [t]⟩ := by
          simpa using hc'
        subst hc''
        exact ⟨t, List.mem_append.2 (Or.inr (by simp)), by simp⟩

lemma foldl_addToCategory_inv :
    ∀ (ts p : List MCPTool) (cats : List ToolCategory),
      CatInv p cats → CatInv (p ++ ts) (ts.foldl addToCategory cats)
  | [], p, cats, h => by simpa using h
  | t :: ts, p, cats, h => by
      have h' := addToCategory_inv (t := t) h
      have h'' := foldl_addToCategory_inv ts (p ++ [t]) (addToCategory cats t) h'
      simpa using h''

lemma categorizeTools_inv (ts : List MCPTool) : CatInv ts (categorizeTools ts) := by
  have h0 : CatInv [] [] := by
    refine ⟨?_, ?_, ?_, ?_⟩ <;> simp
  simpa using foldl_addToCategory_inv ts [] [] h0

/-- Two categories of the same run with the same directory key are the
same category (the source keys its `Map` by directory). -/
lemma categorizeTools_dir_inj {ts : List MCPTool} {c c' : ToolCategory}
    (hc : c ∈ categorizeTools ts) (hc' : c' ∈ categorizeTools ts)
    (hd : c.directory = c'.directory) : c = c' :=
  List.inj_on_of_nodup_map (categorizeTools_inv ts).2.1 hc hc' hd

lemma flatten_filter_cons (ds : List String) (t : MCPTool) (p : List MCPTool)
    (hnd : ds.Nodup) (hmem : assignDir t ∈ ds) :
    ((ds.map (fun d => (t :: p).filter (fun x => assignDir x == d))).flatten).Perm
      (t :: (ds.map (fun d => p.filter (fun x => assignDir x == d))).flatten) := by
  induction ds with
  | nil => simp at hmem
  | cons d ds ih =>
    by_cases hd : assignDir t = d
    · have hrest : ds.map (fun d' => (t :: p).filter (fun x => assignDir x == d')) =
          ds.map (fun d' => p.filter (fun x => assignDir x == d')) := by
        refine List.map_congr_left ?_
        intro d' hd'
        have hne : ¬ assignDir t = d' := by
          rintro rfl
          exact (List.nodup_cons.1 hnd).1 (hd ▸ hd')
        simp [List.filter_cons, hne]
      have hhead : (t :: p).filter (fun x => assignDir x == d) =
          t :: p.filter (fun x => assignDir x == d) := by
        simp [List.filter_cons, hd]
      simp only [List.map_cons, List.flatten_cons, hhead, hrest, List.cons_append]
      exact List.Perm.refl _
    · have hmem' : assignDir t ∈ ds := by
        rcases List.mem_cons.1 hmem with h | h
        · exact absurd h hd
        · exact h
      have ih' := ih (List.nodup_cons.1 hnd).2 hmem'
      have hhead : (t :: p).filter (fun x => assignDir x == d) =
          p.filter (fun x => assignDir x == d) := by
        simp [List.filter_cons, hd]
      simp only [List.map_cons, List.flatten_cons, hhead]
      exact (List.Perm.append_left _ ih').trans List.perm_middle

lemma flatten_filter_perm (ds : List String) (p : List MCPTool)
    (hnd : ds.Nodup) (hcov : ∀ t ∈ p, assignDir t ∈ ds) :
    ((ds.map (fun d => p.filter (fun x => assignDir x == d))).flatten).Perm p := by
  induction p with
  | nil =>
    have h : ds.map (fun d => ([] : List MCPTool).filter (fun x => assignDir x == d)) =
        ds.map (fun _ => ([] : List MCPTool)) := by simp
    simp [h]
  | cons t p ih =>
    have h1 := flatten_filter_cons ds t p hnd (hcov t (by simp))
    have h2 := ih (fun x hx => hcov x (by simp [hx]))
    exact h1.trans (h2.cons t)

lemma categorizeTools_flatten_perm (ts : List MCPTool) :
    (((categorizeTools ts).map (fun c => c.tools)).flatten).Perm ts := by
  obtain ⟨h1, h2, h3, _⟩ := categorizeTools_inv ts
  have hmap : (categorizeTools ts).map (fun c => c.tools) =
      ((categorizeTools ts).map (fun c => c.directory)).map
        (fun d => ts.filter (fun x => assignDir x == d)) := by
    rw [List.map_map]
    exact List.map_congr_left (fun c hc => h1 c hc)
  rw [hmap]
  refine flatten_filter_perm _ _ h2 ?_
  intro t ht
  obtain ⟨c, hc, hcd⟩ := h3 t ht
  exact List.mem_map.2 ⟨c, hc, hcd⟩

/-- No classification rule uses the reserved fallback directory key. -/
lemma rules_dir_ne_other : ∀ r ∈ categoryRules, ¬ r.directory = "other" := by decide

lemma assignMeta_of_no_rule {t : MCPTool} (h : assignRule t = none) :
    assignMeta t = ("Other", "other", "Additional tools") := by
  unfold assignMeta
  rw [h]

lemma assignMeta_other {t : MCPTool} (h : (assignMeta t).2.1 = "other") :
    assignMeta t = ("Other", "other", "Additional tools") := by
  cases hr : assignRule t with
  | none => exact assignMeta_of_no_rule hr
  | some r =>
    exfalso
    have hmem : r ∈ categoryRules := List.mem_of_find?_eq_some hr
    have : (assignMeta t).2.1 = r.directory := by unfold assignMeta; rw [hr]
    exact rules_dir_ne_other r hmem (this.symm.trans h)

lemma assignDir_other_iff {t : MCPTool} :
    assignDir t = "other" ↔ (∀ r ∈ categoryRules, ruleClaims r t = false) := by
  constructor
  · intro h
    have hmeta := assignMeta_other h
    have hr : assignRule t = none := by
      cases hr : assignRule t with
      | none => rfl
      | some r =>
        exfalso
        have hmem : r ∈ categoryRules := List.mem_of_find?_eq_some hr
        have hd : (assignMeta t).2.1 = r.directory := by unfold assignMeta; rw [hr]
        exact rules_dir_ne_other r hmem (hd.symm.trans h)
    intro r hrm
    have := List.find?_eq_none.1 hr r hrm
    simpa using this
  · intro h
    have hr : assignRule t = none :=
      List.find?_eq_none.2 (fun r hrm => by simp [h r hrm])
    unfold assignDir
    rw [assignMeta_of_no_rule hr]

/-- C1: `categorizeTools` partitions its input.  The flattened category
contents are a permutation of the input tool list; every input tool lies
in exactly one returned category; and a tool lies in the fallback `Other`
category exactly when no rule claims it (no match pattern hits, or a hit
is cancelled by an exclude pattern). -/
theorem categorizeTools_partition (ts : List MCPTool) :
    (((categorizeTools ts).map (fun c => c.tools)).flatten).Perm ts ∧
    (∀ t ∈ ts, ∃ c ∈ categorizeTools ts, t ∈ c.tools ∧
      ∀ c' ∈ categorizeTools ts, t ∈ c'.tools → c' = c) ∧
    (∀ t ∈ ts, ((∀ r ∈ categoryRules, ruleClaims r t = false) ↔
      ∃ c ∈ categorizeTools ts, c.name = "Other" ∧ c.directory = "other" ∧
        t ∈ c.tools)) := by
  obtain ⟨h1, h2, h3, h4⟩ := categorizeTools_inv ts
  refine ⟨categorizeTools_flatten_perm ts, ?_, ?_⟩
  · intro t ht
    obtain ⟨c, hc, hcd⟩ := h3 t ht
    have hmem : t ∈ c.tools := by
      rw [h1 c hc]
      exact List.mem_filter.2 ⟨ht, beq_iff_eq.2 hcd.symm⟩
    refine ⟨c, hc, hmem, ?_⟩
    intro c' hc' hmem'
    have hd' : assignDir t = c'.directory := by
      have := List.mem_filter.1 ((h1 c' hc') ▸ hmem')
      exact beq_iff_eq.1 this.2
    exact categorizeTools_dir_inj hc' hc (hd'.symm.trans hcd.symm)
  · intro t ht
    constructor
    · intro hnone
      have hdir : assignDir t = "other" := assignDir_other_iff.2 hnone
      obtain ⟨c, hc, hcd⟩ := h3 t ht
      have hcd' : c.directory = "other" := hcd.trans hdir
      have hmem : t ∈ c.tools := by
        rw [h1 c hc]
        exact List.mem_filter.2 ⟨ht, beq_iff_eq.2 hcd.symm⟩
      obtain ⟨t', ht', hmeta⟩ := h4 c hc
      have hdir' : (assignMeta t').2.1 = "other" := by rw [hmeta]; exact hcd'
      have := assignMeta_other hdir'
      have hname : c.name = "Other" := by
        have h5 := hmeta.symm.trans this
        exact congrArg Prod.fst h5
      exact ⟨c, hc, hname, hcd', hmem⟩
    · rintro ⟨c, hc, _, hcd, hmem⟩
      have hd : assignDir t = c.directory := by
        have := List.mem_filter.1 ((h1 c hc) ▸ hmem)
        exact beq_iff_eq.1 this.2
      exact assignDir_other_iff.1 (hd.trans hcd)

def wWorkspaceTool : MCPTool := { name := "create_workspace" }

def wMysteryTool : MCPTool := { name := "zzz_mystery" }

def wToolsC1 : List MCPTool := [wWorkspaceTool, wMysteryTool]

theorem categorizeTools_partition_witness :
    ((((categorizeTools wToolsC1).map (fun c => c.tools)).flatten).Perm wToolsC1) ∧
    ((∀ r ∈ categoryRules, ruleClaims r wMysteryTool = false) ↔
      ∃ c ∈ categorizeTools wToolsC1, c.name = "Other" ∧ c.directory = "other" ∧
        wMysteryTool ∈ c.tools) :=
  ⟨(categorizeTools_partition wToolsC1).1,
   (categorizeTools_partition wToolsC1).2.2 wMysteryTool (by decide)⟩

/-- C10: within every returned category the tools keep their input order:
each category's tool sequence is exactly the input filtered to the tools
assigned to that category's directory, and no returned category is empty. -/
theorem categorizeTools_category_order (ts : List MCPTool) :
    ∀ c ∈ categorizeTools ts,
      c.tools = ts.filter (fun t => assignDir t == c.directory) ∧ c.tools ≠ [] := by
  intro c hc
  obtain ⟨h1, _, _, h4⟩ := categorizeTools_inv ts
  refine ⟨h1 c hc, ?_⟩
  obtain ⟨t, ht, hmeta⟩ := h4 c hc
  rw [h1 c hc]
  intro hnil
  have hbeq : (assignDir t == c.directory) = true := by
    have hd : assignDir t = c.directory := by
      unfold assignDir
      rw [hmeta]
    exact beq_iff_eq.2 hd
  have hmem : t ∈ ts.filter (fun x => assignDir x == c.directory) :=
    List.mem_filter.2 ⟨ht, hbeq⟩
  rw [hnil] at hmem
  simp at hmem

def wToolsC10 : List MCPTool := [{ name := "plan_run" }, { name := "apply_run" }]

def wCatC10 : ToolCategory :=
  { name := "Runs", directory := "runs",
    description := "Terraform run creation and monitoring", tools := wToolsC10 }

theorem categorizeTools_category_order_witness :
    wCatC10.tools = wToolsC10.filter (fun t => assignDir t == wCatC10.directory) ∧
      wCatC10.tools ≠ [] :=
  categorizeTools_category_order wToolsC10 wCatC10 (by decide)

/-! ### Rule precedence (C2) -/

lemma find?_eq_get_of_first {α : Type} (p : α → Bool) :
    ∀ (l : List α) (i : Nat) (h : i < l.length),
      p (l.get ⟨i, h⟩) = true →
      (∀ k (hk : k < i), p (l.get ⟨k, Nat.lt_trans hk h⟩) = false) →
      l.find? p = some (l.get ⟨i, h⟩)
  | [], i, h, _, _ => absurd h (by simp)
  | a :: l, 0, _, hp, _ => by
      have hp' : p a = true := hp
      rw [List.find?_cons_of_pos _ hp']
      rfl
  | a :: l, i + 1, h, hp, hbefore => by
      have ha : p a = false := hbefore 0 (Nat.succ_pos i)
      rw [List.find?_cons_of_neg _ (by simp [ha])]
      exact find?_eq_get_of_first p l i (Nat.lt_of_succ_lt_succ h) hp
        (fun k hk => hbefore (k + 1) (Nat.succ_lt_succ hk))

/-- C2 (amended): the first rule in list order whose match patterns hit
and whose exclude patterns miss claims the tool.  In particular, when rule
`A` (index `i`) precedes rule `B` (index `j`), both claim the tool, and no
rule before `A` claims it, the tool lands in the category of `A`. -/
theorem categorizeTools_first_rule_wins (ts : List MCPTool) (t : MCPTool)
    (i j : Nat) (hij : i < j) (hj : j < categoryRules.length)
    (hA : ruleClaims (categoryRules.get ⟨i, Nat.lt_trans hij hj⟩) t = true)
    (_hB : ruleClaims (categoryRules.get ⟨j, hj⟩) t = true)
    (hfirst : ∀ k (hk : k < i),
      ruleClaims (categoryRules.get ⟨k, Nat.lt_trans hk (Nat.lt_trans hij hj)⟩) t = false)
    (ht : t ∈ ts) :
    assignDir t = (categoryRules.get ⟨i, Nat.lt_trans hij hj⟩).directory ∧
    ∃ c ∈ categorizeTools ts,
      c.directory = (categoryRules.get ⟨i, Nat.lt_trans hij hj⟩).directory ∧
      t ∈ c.tools := by
  have hfind : assignRule t = some (categoryRules.get ⟨i, Nat.lt_trans hij hj⟩) :=
    find?_eq_get_of_first _ categoryRules i (Nat.lt_trans hij hj) hA hfirst
  have hdir : assignDir t = (categoryRules.get ⟨i, Nat.lt_trans hij hj⟩).directory := by
    unfold assignDir assignMeta
    rw [hfind]
  obtain ⟨h1, _, h3, _⟩ := categorizeTools_inv ts
  obtain ⟨c, hc, hcd⟩ := h3 t ht
  refine ⟨hdir, c, hc, hcd.trans hdir, ?_⟩
  rw [h1 c hc]
  exact List.mem_filter.2 ⟨ht, beq_iff_eq.2 hcd.symm⟩

def wRunTagTool : MCPTool := { name := "run_tag" }

theorem categorizeTools_first_rule_wins_witness :
    assignDir wRunTagTool = "runs" ∧
    ∃ c ∈ categorizeTools [wRunTagTool], c.directory = "runs" ∧
      wRunTagTool ∈ c.tools := by
  have h := categorizeTools_first_rule_wins [wRunTagTool] wRunTagTool 3 5
    (by decide) (by decide) (by decide) (by decide) (by decide) (by decide)
  have hd : (categoryRules.get ⟨3, by decide⟩).directory = "runs" := by decide
  rw [hd] at h
  exact h

/-- C2 counterexample to the literal pairwise statement: the tool
`run_tag_org` is claimed (matched, not excluded) both by the `Tags` rule
at index 5 and by the `Organization` rule at index 6, so taking `A := Tags`
and `B := Organization` the claim puts it in the `tags` category; the code
instead assigns it to the earlier `Runs` rule, and no `tags` category is
created at all. -/
theorem categorizeTools_pair_counterexample :
    categoryRules[5]? = some tagsRule ∧
    categoryRules[6]? = some organizationRule ∧
    tagsRule.directory = "tags" ∧
    ruleClaims tagsRule { name := "run_tag_org" } = true ∧
    ruleClaims organizationRule { name := "run_tag_org" } = true ∧
    (categorizeTools [{ name := "run_tag_org" }]).map (fun c => c.directory) =
      ["runs"] := by
  refine ⟨by decide, by decide, by decide, by decide, by decide, by decide⟩

/-! ### Pattern case policy (C7)

All exclude patterns and most match patterns carry the regex `i` flag, but
the Public Registry match pattern and the second Organization match
pattern are written without it and are therefore case-sensitive.
-/

/-- C7 counterexample: the Public Registry rule matches
`get_latest_module` but not `GET_LATEST_MODULE`, a name differing only in
letter case, and the upper-case variant falls through to `Other`. -/
theorem pattern_case_counterexample :
    publicRegistryRule ∈ categoryRules ∧
    ruleClaims publicRegistryRule { name := "get_latest_module" } = true ∧
    ruleClaims publicRegistryRule { name := "GET_LATEST_MODULE" } = false ∧
    assignDir { name := "GET_LATEST_MODULE" } = "other" := by
  refine ⟨by decide, by decide, by decide, by decide⟩

/-- C7 (amended): every pattern is tested independently against the tool
name and, when present and nonempty, the description, with a hit on either
field counting; tests by `i`-flagged patterns are invariant under letter
case of the input; all exclude patterns are `i`-flagged, and all match
patterns are `i`-flagged except the Public Registry prefix alternation and
the Organization rule's `list_terraform` prefix pattern, which are
case-sensitive. -/
theorem patterns_case_policy :
    (∀ p : Pattern, p.caseInsensitive = true → ∀ s s' : String,
        lowerList s.toList = lowerList s'.toList → p.test s = p.test s') ∧
    (∀ r ∈ categoryRules, ∀ p ∈ r.exclude, p.caseInsensitive = true) ∧
    (∀ r ∈ categoryRules, ∀ p ∈ r.patterns, p.caseInsensitive = true ∨
        (r = publicRegistryRule ∧
          p = Pattern.headAlt ["get_latest", "get_module_details", "get_policy_details",
            "get_provider_details", "get_provider_capabilities", "search_modules",
            "search_policies", "search_providers"]) ∨
        (r = organizationRule ∧ p = Pattern.headAlt ["list_terraform"])) ∧
    (∀ (p : Pattern) (t : MCPTool), patternHits p t = true ↔
        (p.test t.name = true ∨
          ∃ d, t.description = some d ∧ d ≠ "" ∧ p.test d = true)) := by
  refine ⟨?_, by decide, by decide, ?_⟩
  · intro p hp s s' h
    cases p with
    | iSub alts =>
      simp only [Pattern.test]
      rw [h]
    | headAlt alts => simp [Pattern.caseInsensitive] at hp
  · intro p t
    unfold patternHits
    cases hdesc : t.description with
    | none => simp
    | some d =>
      by_cases hd : d = ""
      · subst hd; simp
      · simp [hd]

theorem patterns_case_policy_witness :
    Pattern.test (Pattern.iSub ["workspace"]) "Create_Workspace" =
      Pattern.test (Pattern.iSub ["workspace"]) "create_workspace" :=
  patterns_case_policy.1 (Pattern.iSub ["workspace"]) (by decide)
    "Create_Workspace" "create_workspace" (by decide)

/-! ### Schema documentation (`formatSchemaForDocs`, C8) -/

/-- JavaScript `x || dflt` for an optional string value: absent and empty
strings are falsy. -/
def jsOrString (x : Option String) (dflt : String) : String :=
  match x with
  | some s => if s == "" then dflt else s
  | none => dflt

/-- The documentation lines produced for one property entry: the member
line with its `(required)`/`(optional)` marker, then an indented
description line when the property has a nonempty description. -/
def propLines (required : List String) (entry : String × PropSchema) : List String :=
  let requiredMarker := if required.contains entry.1 then " (required)" else " (optional)"
  let ty := jsOrString entry.2.type "any"
  let descr := jsOrString entry.2.description ""
  ("- `" ++ entry.1 ++ "`: " ++ ty ++ requiredMarker) ::
    (if descr == "" then [] else ["  " ++ descr])

/-- `formatSchemaForDocs` of `skill-generator.ts`: a missing schema or
missing `properties` yields `No parameters`; otherwise one block of lines
per property, joined with newlines. -/
def formatSchemaForDocs (schema : Option SchemaNode) : String :=
  match schema with
  | none => "No parameters"
  | some s =>
    match s.properties with
    | none => "No parameters"
    | some props =>
      String.intercalate "\n" ((props.map (propLines (s.required.getD []))).flatten)

/-- C8: every property of a schema with a `properties` mapping becomes a
documented member line, and the line carries the `(required)` marker
exactly when the property name occurs in the `required` list, the
`(optional)` marker otherwise. -/
theorem formatSchema_required_marker (props : List (String × PropSchema))
    (req : List String) (entry : String × PropSchema) (h : entry ∈ props) :
    ("- `" ++ entry.1 ++ "`: " ++ jsOrString entry.2.type "any" ++
        (if req.contains entry.1 then " (required)" else " (optional)")) ∈
      ((props.map (propLines req)).flatten) ∧
    formatSchemaForDocs (some { properties := some props, required := some req }) =
      String.intercalate "\n" ((props.map (propLines req)).flatten) := by
  constructor
  · refine List.mem_flatten.2 ⟨propLines req entry, List.mem_map_of_mem _ h, ?_⟩
    simp [propLines]
  · rfl

def wSchemaC8 : SchemaNode :=
  { properties := some [("x", { type := some "string" }), ("y", { type := some "number" })],
    required := some ["x"] }

theorem formatSchema_required_marker_witness :
    ("- `" ++ "x" ++ "`: " ++ jsOrString (some "string") "any" ++
        (if (["x"] : List String).contains "x" then " (required)" else " (optional)")) ∈
      (([(("x" : String), ({ type := some "string" } : PropSchema)),
         ("y", { type := some "number" })].map (propLines ["x"])).flatten) ∧
    formatSchemaForDocs (some wSchemaC8) =
      "- `x`: string (required)\n- `y`: number (optional)" :=
  ⟨(formatSchema_required_marker
      [("x", { type := some "string" }), ("y", { type := some "number" })] ["x"]
      ("x", { type := some "string" }) (by decide)).1,
   by decide⟩

/-! ### Credential masking (`maskSensitiveArgs`, C5)

`maskSensitiveArgs` (identical in `convert.ts` and `skill-generator.ts`)
tests each argument against the JavaScript regex

  `/^(-e\s+)?([A-Z_]+(?:TOKEN|SECRET|KEY|PASSWORD|API_KEY|AUTH)[A-Z_]*)=(.+)$/i`

and, on a match, rebuilds the argument as the lead group, the
variable-name group, and a fixed redaction marker.  The regex is
deterministic enough to embed without a backtracking engine:

* the optional lead group consumes `-e` or `-E` (the `i` flag) followed by
  one or more whitespace characters; when absent the name must start at
  the first character, and since `-` is not a name character an argument
  starting the lead shape can only match through the lead group, so
  committing to it loses no matches;
* the name group is a maximal run of `[A-Za-z_]` characters that must be
  followed immediately by `=` (name characters can never match `=`, so no
  backtracking can shorten the run), and because of the mandatory
  `[A-Z_]+` before the keyword alternation the name must contain one of
  the six keywords, case-insensitively, starting at position at least 1;
* the value `(.+)$` is a nonempty remainder containing no line
  terminators (`.` matches neither newline, carriage return, nor the two
  Unicode line separators).
-/

def isNameChar (c : Char) : Bool :=
  ('A' ≤ c && c ≤ 'Z') || ('a' ≤ c && c ≤ 'z') || c == '_'

/-- ECMAScript `\s`: the WhiteSpace and LineTerminator productions, i.e.
tab, line feed, vertical tab, form feed, carriage return, space, no-break
space, the Ogham space mark, the Unicode space separators U+2000 to
U+200A, the line and paragraph separators, the narrow no-break space, the
medium mathematical space, the ideographic space, and the byte order
mark. -/
def isJsSpace (c : Char) : Bool :=
  c == ' ' || c == '\t' || c == '\n' || c == '\r' || c == '\x0b' || c == '\x0c' ||
  c == '\u00a0' || c == '\u1680' || ('\u2000' ≤ c && c ≤ '\u200a') ||
  c == '\u2028' || c == '\u2029' || c == '\u202f' || c == '\u205f' ||
  c == '\u3000' || c == '\ufeff'

def isLineTerm (c : Char) : Bool :=
  c == '\n' || c == '\r' || c == '\u2028' || c == '\u2029'

def sensitiveKeywords : List String :=
  ["TOKEN", "SECRET", "KEY", "PASSWORD", "API_KEY", "AUTH"]

def upperList (cs : List Char) : List Char := cs.map Char.toUpper

/-- The keyword alternation matches inside the name at position at least
one, i.e. in the tail of the name. -/
def keywordInTail (name : List Char) : Bool :=
  match name with
  | [] => false
  | _ :: t => sensitiveKeywords.any (fun k => hasSubstr k.toList (upperList t))

/-- The optional `(-e\s+)?` lead group: returns the consumed lead text and
the remainder of the argument. -/
def splitEnvLead (cs : List Char) : List Char × List Char :=
  match cs with
  | c1 :: c2 :: rest =>
    if c1 == '-' && (c2 == 'e' || c2 == 'E') then
      let sp := rest.takeWhile isJsSpace
      if sp.isEmpty then ([], cs) else (c1 :: c2 :: sp, rest.dropWhile isJsSpace)
    else ([], cs)
  | _ => ([], cs)

/-- The name group: the maximal run of name characters after the lead. -/
def envName (arg : String) : List Char :=
  (splitEnvLead arg.toList).2.takeWhile isNameChar

/-- The whole regex test: on success, the text of the lead group and of
the variable-name group. -/
def matchEnvVar (arg : String) : Option (String × String) :=
  match (splitEnvLead arg.toList).2.dropWhile isNameChar with
  | c :: value =>
    if c == '=' && !(envName arg).isEmpty && keywordInTail (envName arg) &&
        !value.isEmpty && value.all (fun c' => !isLineTerm c') then
      some (String.mk (splitEnvLead arg.toList).1, String.mk (envName arg))
    else none
  | [] => none

lemma matchEnvVar_eval (arg : String) (c : Char) (value : List Char)
    (hd : (splitEnvLead arg.toList).2.dropWhile isNameChar = c :: value) :
    matchEnvVar arg =
      if c == '=' && !(envName arg).isEmpty && keywordInTail (envName arg) &&
          !value.isEmpty && value.all (fun c' => !isLineTerm c') then
        some (String.mk (splitEnvLead arg.toList).1, String.mk (envName arg))
      else none := by
  unfold matchEnvVar
  rw [hd]

def maskSensitiveArgs (args : List String) : List String :=
  args.map (fun arg =>
    match matchEnvVar arg with
    | some pn => pn.1 ++ pn.2 ++ "=***REDACTED***"
    | none => arg)

/-- Shape of an argument text the lead group consumes. -/
def LeadOk (lead : List Char) : Prop :=
  lead = [] ∨ ∃ e sp, (e = 'e' ∨ e = 'E') ∧ sp ≠ [] ∧
    (∀ c ∈ sp, isJsSpace c = true) ∧ lead = '-' :: e :: sp

/-- Shape of a variable name the regex masks: only ASCII letters and
underscores, with a sensitive keyword preceded by at least one character. -/
def NameOk (name : List Char) : Prop :=
  name ≠ [] ∧ (∀ c ∈ name, isNameChar c = true) ∧ keywordInTail name = true

/-- Shape of a value the regex accepts: nonempty, no line terminators. -/
def ValueOk (value : List Char) : Prop :=
  value ≠ [] ∧ ∀ c ∈ value, isLineTerm c = false

lemma space_not_nameChar {c : Char} (h : isJsSpace c = true) : isNameChar c = false := by
  simp only [isJsSpace, Bool.or_eq_true, beq_iff_eq, Bool.and_eq_true,
    decide_eq_true_eq] at h
  rcases h with ((((((((((((((h | h) | h) | h) | h) | h) | h) | h) |
    ⟨hlo, hhi⟩) | h) | h) | h) | h) | h) | h) <;> try (subst h; decide)
  have h1 : (decide (c ≤ 'Z')) = false :=
    decide_eq_false (fun hc => absurd (le_trans hlo hc) (by decide))
  have h2 : (decide (c ≤ 'z')) = false :=
    decide_eq_false (fun hc => absurd (le_trans hlo hc) (by decide))
  have h3 : (c == '_') = false := by
    refine beq_eq_false_iff_ne.2 (fun hc => ?_)
    rw [hc] at hlo
    exact absurd hlo (by decide)
  simp [isNameChar, h1, h2, h3]

lemma takeWhile_append_all {p : Char → Bool} :
    ∀ (l1 l2 : List Char), (∀ c ∈ l1, p c = true) →
      (l1 ++ l2).takeWhile p = l1 ++ l2.takeWhile p
  | [], _, _ => rfl
  | c :: l1, l2, h => by
      have hc : p c = true := h c (by simp)
      simp only [List.cons_append, List.takeWhile_cons_of_pos hc]
      rw [takeWhile_append_all l1 l2 (fun x hx => h x (by simp [hx]))]

lemma dropWhile_append_all {p : Char → Bool} :
    ∀ (l1 l2 : List Char), (∀ c ∈ l1, p c = true) →
      (l1 ++ l2).dropWhile p = l2.dropWhile p
  | [], _, _ => rfl
  | c :: l1, l2, h => by
      have hc : p c = true := h c (by simp)
      simp only [List.cons_append, List.dropWhile_cons_of_pos hc]
      exact dropWhile_append_all l1 l2 (fun x hx => h x (by simp [hx]))

lemma splitEnvLead_no_dash {cs : List Char}
    (h : ∀ c, cs.head? = some c → (c == '-') = false) : splitEnvLead cs = ([], cs) := by
  match cs with
  | [] => rfl
  | [_] => rfl
  | c1 :: c2 :: rest =>
      have h1 := h c1 rfl
      simp [splitEnvLead, h1]

lemma splitEnvLead_lead {e : Char} {sp rest : List Char}
    (he : e = 'e' ∨ e = 'E') (hsp : sp ≠ []) (hsp2 : ∀ c ∈ sp, isJsSpace c = true)
    (hrest : ∀ c, rest.head? = some c → isJsSpace c = false) :
    splitEnvLead ('-' :: e :: (sp ++ rest)) = ('-' :: e :: sp, rest) := by
  have hcond : (('-' : Char) == '-' && (e == 'e' || e == 'E')) = true := by
    rcases he with rfl | rfl <;> decide
  have htake : (sp ++ rest).takeWhile isJsSpace = sp := by
    rw [takeWhile_append_all sp rest hsp2]
    cases rest with
    | nil => simp
    | cons c rest' =>
        rw [List.takeWhile_cons_of_neg (by simp [hrest c rfl])]
        simp
  have hdrop : (sp ++ rest).dropWhile isJsSpace = rest := by
    rw [dropWhile_append_all sp rest hsp2]
    cases rest with
    | nil => simp
    | cons c rest' => exact List.dropWhile_cons_of_neg (by simp [hrest c rfl])
  have hne : ((sp ++ rest).takeWhile isJsSpace).isEmpty = false := by
    rw [htake]
    cases sp with
    | nil => exact absurd rfl hsp
    | cons _ _ => rfl
  simp only [splitEnvLead, hcond, if_true, hne, htake, hdrop]
  simp [hsp]

lemma splitEnvLead_spec (cs : List Char) :
    cs = (splitEnvLead cs).1 ++ (splitEnvLead cs).2 ∧ LeadOk (splitEnvLead cs).1 := by
  match cs with
  | [] => exact ⟨rfl, Or.inl rfl⟩
  | [c] => exact ⟨rfl, Or.inl rfl⟩
  | c1 :: c2 :: rest =>
      by_cases h : (c1 == '-' && (c2 == 'e' || c2 == 'E')) = true
      · by_cases hsp : ((rest.takeWhile isJsSpace).isEmpty : Bool) = true
        · simp only [splitEnvLead, h, if_true, hsp]
          exact ⟨rfl, Or.inl rfl⟩
        · simp only [splitEnvLead, h, if_true, Bool.not_eq_true] at hsp ⊢
          rw [if_neg (by simp [hsp])]
          constructor
          · simp only [List.cons_append]
            rw [List.takeWhile_append_dropWhile]
          · right
            have hsplit2 := h
            simp only [Bool.and_eq_true, Bool.or_eq_true] at hsplit2
            obtain ⟨h1, h2⟩ := hsplit2
            have hc1 : c1 = '-' := beq_iff_eq.1 h1
            have hc2 : c2 = 'e' ∨ c2 = 'E' := by
              rcases h2 with h' | h'
              · exact Or.inl (beq_iff_eq.1 h')
              · exact Or.inr (beq_iff_eq.1 h')
            refine ⟨c2, rest.takeWhile isJsSpace, hc2, ?_, ?_, by rw [hc1]⟩
            · intro hnil
              rw [hnil] at hsp
              exact absurd hsp (by decide)
            · intro c hc
              exact List.mem_takeWhile_imp hc
      · simp only [splitEnvLead, h]
        rw [if_neg (by simp [h])]
        exact ⟨rfl, Or.inl rfl⟩

lemma matchEnvVar_complete {lead name value : List Char}
    (hl : LeadOk lead) (hn : NameOk name) (hv : ValueOk value) :
    matchEnvVar (String.mk (lead ++ (name ++ '=' :: value))) =
      some (String.mk lead, String.mk name) := by
  obtain ⟨hn1, hn2, hn3⟩ := hn
  obtain ⟨hv1, hv2⟩ := hv
  have hcs : (String.mk (lead ++ (name ++ '=' :: value))).toList =
      lead ++ (name ++ '=' :: value) := rfl
  have hhead : ∀ c, (name ++ '=' :: value).head? = some c → isNameChar c = true := by
    intro c hc
    cases name with
    | nil => exact absurd rfl hn1
    | cons a name' =>
        have ha : a = c := by simpa using hc
        subst ha
        exact hn2 _ (by simp)
  have hsplit : splitEnvLead (lead ++ (name ++ '=' :: value)) =
      (lead, name ++ '=' :: value) := by
    rcases hl with rfl | ⟨e, sp, he, hsp, hsp2, rfl⟩
    · rw [List.nil_append]
      apply splitEnvLead_no_dash
      intro c hc
      have h1 := hhead c hc
      have : ¬ c = '-' := by
        rintro rfl
        exact absurd h1 (by decide)
      simp [this]
    · have : ('-' :: e :: sp) ++ (name ++ '=' :: value) =
          '-' :: e :: (sp ++ (name ++ '=' :: value)) := by simp
      rw [this]
      apply splitEnvLead_lead he hsp hsp2
      intro c hc
      by_cases hj : isJsSpace c = true
      · have hcontra := space_not_nameChar hj
        rw [hhead c hc] at hcontra
        cases hcontra
      · simpa using hj
  have hname : (name ++ '=' :: value).takeWhile isNameChar = name := by
    rw [takeWhile_append_all name _ hn2]
    rw [List.takeWhile_cons_of_neg (by decide)]
    simp
  have hrest : (name ++ '=' :: value).dropWhile isNameChar = '=' :: value := by
    rw [dropWhile_append_all name _ hn2]
    exact List.dropWhile_cons_of_neg (by decide)
  have hnempty : (name.isEmpty : Bool) = false := by
    cases name with
    | nil => exact absurd rfl hn1
    | cons _ _ => rfl
  have hvempty : (value.isEmpty : Bool) = false := by
    cases value with
    | nil => exact absurd rfl hv1
    | cons _ _ => rfl
  have hvall : (value.all (fun c' => !isLineTerm c')) = true := by
    rw [List.all_eq_true]
    intro c hc
    simp [hv2 c hc]
  have hsplit' : splitEnvLead (String.mk (lead ++ (name ++ '=' :: value))).toList =
      (lead, name ++ '=' :: value) := by rw [hcs]; exact hsplit
  have hdrop : (splitEnvLead (String.mk (lead ++ (name ++ '=' :: value))).toList).2.dropWhile
      isNameChar = '=' :: value := by rw [hsplit']; exact hrest
  have hnm : envName (String.mk (lead ++ (name ++ '=' :: value))) = name := by
    unfold envName
    rw [hsplit']
    exact hname
  rw [matchEnvVar_eval _ '=' value hdrop, hnm, hsplit']
  rw [if_pos (by simp [hnempty, hn3, hvempty, hvall])]

lemma matchEnvVar_sound {arg : String} {pn : String × String}
    (h : matchEnvVar arg = some pn) :
    ∃ lead name value, arg.toList = lead ++ (name ++ '=' :: value) ∧
      LeadOk lead ∧ NameOk name ∧ ValueOk value ∧
      pn = (String.mk lead, String.mk name) := by
  obtain ⟨hsplit, hlead⟩ := splitEnvLead_spec arg.toList
  cases hrest : (splitEnvLead arg.toList).2.dropWhile isNameChar with
  | nil =>
      rw [matchEnvVar, hrest] at h
      cases h
  | cons c value =>
      rw [matchEnvVar_eval arg c value hrest] at h
      by_cases hcond : (c == '=' && !(envName arg).isEmpty && keywordInTail (envName arg) &&
          !value.isEmpty && value.all (fun c' => !isLineTerm c')) = true
      · rw [if_pos hcond] at h
        have hcond' := hcond
        simp only [Bool.and_eq_true] at hcond'
        obtain ⟨⟨⟨⟨hc, hne⟩, hkw⟩, hve⟩, hva⟩ := hcond'
        have hc' : c = '=' := beq_iff_eq.1 hc
        have hr2 : (splitEnvLead arg.toList).2 = envName arg ++ '=' :: value := by
          conv_lhs => rw [← List.takeWhile_append_dropWhile (p := isNameChar)
            (l := (splitEnvLead arg.toList).2)]
          rw [hrest, hc']
          rfl
        refine ⟨(splitEnvLead arg.toList).1, envName arg, value, ?_, hlead, ?_, ?_, ?_⟩
        · exact hsplit.trans (by rw [hr2])
        · refine ⟨?_, fun x hx => List.mem_takeWhile_imp hx, hkw⟩
          intro hnil
          rw [hnil] at hne
          exact absurd hne (by decide)
        · refine ⟨?_, ?_⟩
          · intro hnil
            rw [hnil] at hve
            exact absurd hve (by decide)
          · intro x hx
            have hx' := List.all_eq_true.1 hva x hx
            simpa using hx'
        · exact (Option.some.inj h).symm
      · rw [if_neg hcond] at h
        cases h

/-- C5 (amended): an argument of the shape `lead ++ name ++ "=" ++ value`,
where the optional lead is `-e`/`-E` plus whitespace, the name consists
solely of ASCII letters and underscores and contains a sensitive keyword
(`TOKEN`, `SECRET`, `KEY`, `PASSWORD`, `API_KEY`, `AUTH`,
case-insensitively) preceded by at least one name character, and the value
is nonempty and free of line terminators, is rebuilt with its value
replaced by `***REDACTED***` while lead and name are kept; every argument
admitting no such decomposition is returned unchanged. -/
theorem maskSensitiveArgs_masks :
    (∀ lead name value, LeadOk lead → NameOk name → ValueOk value →
      maskSensitiveArgs [String.mk (lead ++ (name ++ '=' :: value))] =
        [String.mk lead ++ String.mk name ++ "=***REDACTED***"]) ∧
    (∀ arg : String,
      (¬ ∃ lead name value, arg.toList = lead ++ (name ++ '=' :: value) ∧
        LeadOk lead ∧ NameOk name ∧ ValueOk value) →
      maskSensitiveArgs [arg] = [arg]) := by
  constructor
  · intro lead name value hl hn hv
    unfold maskSensitiveArgs
    rw [List.map_singleton, matchEnvVar_complete hl hn hv]
  · intro arg hno
    unfold maskSensitiveArgs
    rw [List.map_singleton]
    cases hm : matchEnvVar arg with
    | none => rfl
    | some pn =>
        exfalso
        obtain ⟨lead, name, value, heq, hl, hn, hv, _⟩ := matchEnvVar_sound hm
        exact hno ⟨lead, name, value, heq, hl, hn, hv⟩

theorem maskSensitiveArgs_masks_witness :
    maskSensitiveArgs ["TFE_TOKEN=abc123"] = ["TFE_TOKEN=***REDACTED***"] ∧
    maskSensitiveArgs ["plain"] = ["plain"] := by
  constructor
  · have h := maskSensitiveArgs_masks.1 [] "TFE_TOKEN".toList "abc123".toList
      (Or.inl rfl) ⟨by decide, by decide, by decide⟩ ⟨by decide, by decide⟩
    exact h
  · refine maskSensitiveArgs_masks.2 "plain" ?_
    rintro ⟨lead, name, value, heq, -, -, -⟩
    have hmem : '=' ∈ "plain".toList := by
      rw [heq]
      exact List.mem_append.2 (Or.inr (List.mem_append.2 (Or.inr (by simp))))
    exact absurd hmem (by decide)

/-- C5 counterexample: the argument `TOKEN=abc123` has the
environment-variable-assignment shape and its variable name contains the
keyword `TOKEN`, yet `maskSensitiveArgs` leaves it unchanged, because the
regex demands at least one name character before the keyword
(`[A-Z_]+` precedes the keyword alternation). -/
theorem maskSensitiveArgs_counterexample :
    hasSubstr "TOKEN".toList (upperList "TOKEN".toList) = true ∧
    maskSensitiveArgs ["TOKEN=abc123"] = ["TOKEN=abc123"] ∧
    ("TOKEN=abc123" : String) ≠ "TOKEN=***REDACTED***" := by
  refine ⟨by decide, by decide, by decide⟩

/-! ### The CLI driver (`convert.ts`, C6)

The happy path of `convert` renders the server command for the console
banner with `maskSensitiveArgs(options.serverArgs)`, spawns the server via
`connectToMCPServer(options.serverCommand, options.serverArgs)` with the
original arguments, and hands the unmasked `options.serverArgs` to the
skill metadata, from which `formatCommandForDocs` re-masks them for
`SKILL.md` and `README.md`.
-/

structure ConversionOptions where
  serverCommand : String
  serverArgs : List String
  outputDir : String
  skillName : String
  skillDescription : Option String := none

/-- `formatCommandForDocs` of `skill-generator.ts`. -/
def formatCommandForDocs (command : String) (args : List String) : String :=
  command ++ " " ++ String.intercalate " " (maskSensitiveArgs args)

/-- The argument-relevant observable effects of one `convert` run. -/
structure ConvertTrace where
  consoleCommandLine : String
  spawnCommand : String
  spawnArgs : List String
  docsCommandLine : String

def convertTrace (opts : ConversionOptions) : ConvertTrace :=
  { consoleCommandLine := "Server command: " ++ opts.serverCommand ++ " " ++
      String.intercalate " " (maskSensitiveArgs opts.serverArgs)
  , spawnCommand := opts.serverCommand
  , spawnArgs := opts.serverArgs
  , docsCommandLine := formatCommandForDocs opts.serverCommand opts.serverArgs }

def wOptsC6 : ConversionOptions :=
  { serverCommand := "terraform-mcp", serverArgs := ["TFE_TOKEN=abc123"],
    outputDir := "./out", skillName := "terraform-skill" }

/-- C6: masking is purely representational.  For every options value the
arguments handed to the spawned server process are exactly the original
`serverArgs`, while the console banner and the generated documentation
render them through `maskSensitiveArgs`; concretely, `TFE_TOKEN=abc123`
appears redacted in both renderings while the literal value is spawned. -/
theorem convert_masking_representational :
    (∀ opts : ConversionOptions,
      (convertTrace opts).spawnArgs = opts.serverArgs ∧
      (convertTrace opts).spawnCommand = opts.serverCommand ∧
      (convertTrace opts).consoleCommandLine =
        "Server command: " ++ opts.serverCommand ++ " " ++
          String.intercalate " " (maskSensitiveArgs opts.serverArgs) ∧
      (convertTrace opts).docsCommandLine =
        opts.serverCommand ++ " " ++
          String.intercalate " " (maskSensitiveArgs opts.serverArgs)) ∧
    (convertTrace wOptsC6).consoleCommandLine =
      "Server command: terraform-mcp TFE_TOKEN=***REDACTED***" ∧
    (convertTrace wOptsC6).docsCommandLine =
      "terraform-mcp TFE_TOKEN=***REDACTED***" ∧
    (convertTrace wOptsC6).spawnArgs = ["TFE_TOKEN=abc123"] :=
  ⟨fun _ => ⟨rfl, rfl, rfl, rfl⟩, by decide, by decide, by decide⟩

/-! ### MCP discovery client (`mcp-client.ts`, C3, C4, C9)

`listTools` runs a `do/while` loop: request a page with the current
cursor (initially `undefined`), append `response.tools` when present,
take `response.nextCursor` as the new cursor, and continue while the
cursor is truthy (JavaScript: `undefined` and the empty string are
falsy).  The loop has no termination guard, so it is modelled with an
explicit fuel bound; exhausting the fuel (`none`) models divergence.
-/

structure ListToolsResponse where
  tools : Option (List MCPTool) := none
  nextCursor : Option String := none

/-- JavaScript truthiness of the cursor: `undefined` and `""` are falsy. -/
def cursorTruthy : Option String → Bool
  | none => false
  | some "" => false
  | some _ => true

def listToolsLoop (server : Option String → ListToolsResponse) :
    Nat → Option String → List MCPTool → Option (List MCPTool)
  | 0, _, _ => none
  | fuel + 1, cursor, acc =>
    let response := server cursor
    let acc2 := match response.tools with
      | some ts => acc ++ ts
      | none => acc
    if cursorTruthy response.nextCursor then
      listToolsLoop server fuel response.nextCursor acc2
    else
      some acc2

/-- `MCPClientWrapper.listTools` against an abstract server, with fuel. -/
def listToolsFuel (server : Option String → ListToolsResponse) (fuel : Nat) :
    Option (List MCPTool) :=
  listToolsLoop server fuel none []

/-- The server serves this finite page sequence starting from the given
cursor: each page is the response to the running cursor, intermediate
cursors are truthy, and the last page's cursor is falsy. -/
inductive Serves (server : Option String → ListToolsResponse) :
    Option String → List ListToolsResponse → Prop
  | last (c : Option String) (r : ListToolsResponse) :
      server c = r → cursorTruthy r.nextCursor = false → Serves server c [r]
  | step (c : Option String) (r : ListToolsResponse) (rs : List ListToolsResponse) :
      server c = r → cursorTruthy r.nextCursor = true →
      Serves server r.nextCursor rs → Serves server c (r :: rs)

lemma listToolsLoop_of_serves {server : Option String → ListToolsResponse}
    {c : Option String} {pages : List ListToolsResponse}
    (h : Serves server c pages) :
    ∀ (acc : List MCPTool) (fuel : Nat), pages.length ≤ fuel →
      listToolsLoop server fuel c acc =
        some (acc ++ pages.flatMap (fun r => r.tools.getD [])) := by
  induction h with
  | last c r hr hc =>
      intro acc fuel hfuel
      match fuel with
      | 0 => exact absurd hfuel (by simp)
      | fuel + 1 =>
          rw [listToolsLoop]
          rw [hr]
          rw [if_neg (by simp [hc])]
          cases hts : r.tools with
          | none => simp [hts]
          | some ts => simp [hts]
  | step c r rs hr hc _hs ih =>
      intro acc fuel hfuel
      match fuel with
      | 0 => exact absurd hfuel (by simp)
      | fuel + 1 =>
          rw [listToolsLoop]
          rw [hr]
          rw [if_pos hc]
          have hlen : rs.length ≤ fuel := by
            have := hfuel
            simp only [List.length_cons] at this
            omega
          cases hts : r.tools with
          | none => rw [ih _ fuel hlen]; simp [hts]
          | some ts => rw [ih _ fuel hlen]; simp [hts]

/-- C3: when the server serves a finite page sequence from the initial
(absent) cursor, `listTools` terminates within `pages.length` requests
and returns the concatenation of all pages' tools, preserving order
within and across pages. -/
theorem listTools_pagination (server : Option String → ListToolsResponse)
    (pages : List ListToolsResponse) (h : Serves server none pages)
    (fuel : Nat) (hfuel : pages.length ≤ fuel) :
    listToolsFuel server fuel = some (pages.flatMap (fun r => r.tools.getD [])) := by
  have hloop := listToolsLoop_of_serves h [] fuel hfuel
  simpa [listToolsFuel] using hloop

def wPageTools1 : List MCPTool := (List.range 10).map (fun i => { name := "alpha" ++ toString i })

def wPageTools2 : List MCPTool := (List.range 10).map (fun i => { name := "beta" ++ toString i })

def wPageTools3 : List MCPTool := (List.range 4).map (fun i => { name := "gamma" ++ toString i })

/-- A fake server serving pages of 10, 10 and 4 tools with cursors
`"c1"`, `"c2"` and `undefined`. -/
def wServerC3 : Option String → ListToolsResponse
  | none => { tools := some wPageTools1, nextCursor := some "c1" }
  | some "c1" => { tools := some wPageTools2, nextCursor := some "c2" }
  | some "c2" => { tools := some wPageTools3, nextCursor := none }
  | some _ => { tools := none, nextCursor := none }

theorem listTools_pagination_witness :
    listToolsFuel wServerC3 3 = some (wPageTools1 ++ wPageTools2 ++ wPageTools3) ∧
    (wPageTools1 ++ wPageTools2 ++ wPageTools3).length = 24 := by
  have hserves : Serves wServerC3 none
      [wServerC3 none, wServerC3 (some "c1"), wServerC3 (some "c2")] := by
    refine Serves.step _ _ _ rfl (by decide) ?_
    refine Serves.step _ _ _ rfl (by decide) ?_
    exact Serves.last _ _ rfl (by decide)
  have h := listTools_pagination wServerC3
    [wServerC3 none, wServerC3 (some "c1"), wServerC3 (some "c2")] hserves 3 (by decide)
  exact ⟨h.trans (by decide), by decide⟩

/-- A server that answers every request with the same cursor `"c1"`. -/
def wLoopServer : Option String → ListToolsResponse :=
  fun _ => { tools := some [], nextCursor := some "c1" }

/-- C4: the source `listTools` has no repeated-cursor guard.  Against a
server that returns cursor `"c1"` on every response the loop never takes
the exit branch: for every fuel bound the modelled loop exhausts its fuel
(result `none`, i.e. divergence), instead of failing with
`ProtocolError` as the claim requires. -/
theorem listTools_no_repeated_cursor_guard :
    ∀ fuel : Nat, listToolsFuel wLoopServer fuel = none := by
  have hloop : ∀ (fuel : Nat) (cursor : Option String) (acc : List MCPTool),
      listToolsLoop wLoopServer fuel cursor acc = none := by
    intro fuel
    induction fuel with
    | zero => intro cursor acc; rfl
    | succ fuel ih =>
        intro cursor acc
        rw [listToolsLoop]
        rw [if_pos (show cursorTruthy (wLoopServer cursor).nextCursor = true from rfl)]
        exact ih _ _
  intro fuel
  exact hloop fuel none []

/-! ### Connection lifecycle (`MCPClientWrapper.connect`, C9)

`connect` throws `Error("Client is already connected")` when the
`connected` flag is set, before any transport is created; otherwise it
creates the transport (recording the command line of the process to
spawn), attempts the SDK connect (spawn plus handshake, abstracted by the
`handshakeOk` flag), and sets `connected` on success.  The returned list
records the spawn attempts of the call.
-/

inductive ClientErr where
  | alreadyConnected
  | connectionFailed
deriving DecidableEq

structure ClientState where
  connected : Bool := false
  transport : Option (String × List String) := none
deriving DecidableEq

def connectClient (st : ClientState) (command : String) (args : List String)
    (handshakeOk : Bool) :
    ClientState × Option ClientErr × List (String × List String) :=
  if st.connected then
    (st, some ClientErr.alreadyConnected, [])
  else
    let st2 : ClientState := { st with transport := some (command, args) }
    if handshakeOk then
      ({ st2 with connected := true }, none, [(command, args)])
    else
      (st2, some ClientErr.connectionFailed, [(command, args)])

/-- C9: a second `connect` on a connected instance fails with the
already-connected error, spawns no process and leaves the state
untouched; and a successful `connect` flips `connected`, so the failure
arm makes `connect` succeed at most once per instance. -/
theorem connect_twice_fails :
    (∀ (st : ClientState) (command : String) (args : List String) (ok : Bool),
      st.connected = true →
      connectClient st command args ok = (st, some ClientErr.alreadyConnected, [])) ∧
    (∀ (st : ClientState) (command : String) (args : List String),
      st.connected = false →
      (connectClient st command args true).1.connected = true) := by
  constructor
  · intro st command args ok h
    unfold connectClient
    rw [if_pos h]
  · intro st command args h
    unfold connectClient
    rw [if_neg (by simp [h])]
    rfl

theorem connect_twice_fails_witness :
    connectClient { connected := true, transport := some ("npx", ["-y"]) } "npx" ["-y"] true =
      ({ connected := true, transport := some ("npx", ["-y"]) },
        some ClientErr.alreadyConnected, []) ∧
    (connectClient { connected := false } "npx" ["-y"] true).1.connected = true :=
  ⟨connect_twice_fails.1 _ "npx" ["-y"] true rfl,
   connect_twice_fails.2 { connected := false } "npx" ["-y"] rfl⟩

end McpSkill
